import Mathlib

/-!
Verification of the `transcend` repository (x86-64 Windows build: `usize` is
8 bytes, little-endian).  The definitions below are shallow embeddings of the
functions in `src/transcend/src/ptr.rs` and of the rayon slice combinators the
crate calls into; theorems check the repository's specification against them.
-/

namespace Transcend

/-- The message of the assertion `window_size >= 1` that rayon's
`Windows::len` raises when `par_windows` is driven with window size 0
(an empty pattern).  We model a rayon panic as `Except.error` of this value. -/
def windowAssertMsg : String := "window_size must be at least 1"

/-- Embedding of the predicate closure passed to `position_first` in `scan`
(`ptr.rs` lines 98-103): `pattern.iter().enumerate().all(|(i, &p)| p == 0xFF
|| window[i] == p)`. -/
def windowMatches (pattern window : List Nat) : Bool :=
  (List.range pattern.length).all fun i =>
    (pattern.getD i 0 == 0xFF) || (window.getD i 0 == pattern.getD i 0)

/-- Embedding of rayon's `par_windows m`: the list of all length-`m`
contiguous windows of `l`, in order.  The number of windows is
`l.length + 1 - m` (rayon computes `len().saturating_sub(window_size - 1)`). -/
def parWindows (m : Nat) (l : List Nat) : List (List Nat) :=
  (List.range (l.length + 1 - m)).map fun i => (l.drop i).take m

/-- Embedding of rayon's `position_first p`: the index of the first element
satisfying `p`.  rayon documents `position_first` as deterministic: it returns
the first (lowest-index) position regardless of which thread finds a match
first. -/
def positionFirst (p : α → Bool) : List α → Option Nat
  | [] => none
  | a :: as => if p a then some 0 else (positionFirst p as).map (· + 1)

/-- Embedding of `scan` (`ptr.rs` lines 95-105) as a function from the scanned
byte slice and the pattern to the byte offset of the match.  The source
composes `slice.par_windows(pattern.len())`, `position_first` with the
wildcard predicate, and maps the offset through `slice.as_ptr().add(offset)`
(a byte-strided add, since the slice element type is `u8`).  Driving
`par_windows(0)` trips rayon's `window_size >= 1` assertion, modelled as
`Except.error`. -/
def scan (slice pattern : List Nat) : Except String (Option Nat) :=
  if pattern.length = 0 then .error windowAssertMsg
  else .ok (positionFirst (windowMatches pattern) (parWindows pattern.length slice))

/-- The address-valued result: `scan` returns `slice.as_ptr().add(offset)`,
i.e. the slice's base address plus the byte offset of the first match. -/
def scanAddr (addr : Nat) (slice pattern : List Nat) : Except String (Option Nat) :=
  (scan slice pattern).map (Option.map (addr + ·))

/-- The specification's matching relation: the window of `B` at offset `i`
matches `P` iff the window lies inside `B` and at every pattern position the
pattern byte is the wildcard `0xFF` or equals the buffer byte. -/
def specMatchAt (B P : List Nat) (i : Nat) : Prop :=
  i + P.length ≤ B.length ∧
    ∀ k, k < P.length → P.getD k 0 = 0xFF ∨ B.getD (i + k) 0 = P.getD k 0

theorem getD_replicate_of_lt {x d : Nat} {L k : Nat} (h : k < L) :
    (List.replicate L x).getD k d = x := by
  induction L generalizing k with
  | zero => omega
  | succ n ih =>
    cases k with
    | zero => rfl
    | succ k => exact ih (by omega)

theorem windowMatches_replicate_wildcard (L : Nat) (w : List Nat) :
    windowMatches (List.replicate L 0xFF) w = true := by
  unfold windowMatches
  rw [List.all_eq_true]
  intro i hi
  rw [List.mem_range, List.length_replicate] at hi
  rw [getD_replicate_of_lt hi]
  simp

theorem parWindows_cons_of_le {m : Nat} {l : List Nat} (_h1 : 1 ≤ m)
    (h2 : m ≤ l.length) :
    parWindows m l =
      l.take m :: (List.range (l.length - m)).map fun i => (l.drop (i + 1)).take m := by
  unfold parWindows
  have hn : l.length + 1 - m = (l.length - m) + 1 := by omega
  rw [hn, List.range_succ_eq_map]
  simp [List.map_map, Function.comp]

theorem scan_replicate_wildcards_aux (L : Nat) (B : List Nat)
    (h1 : 1 ≤ L) (h2 : L ≤ B.length) :
    scan B (List.replicate L 0xFF) = .ok (some 0) := by
  unfold scan
  have hlen : (List.replicate L 0xFF).length = L := List.length_replicate L 0xFF
  rw [hlen]
  have hL : ¬ (L = 0) := by omega
  rw [if_neg hL]
  rw [parWindows_cons_of_le h1 h2]
  unfold positionFirst
  rw [windowMatches_replicate_wildcard]
  simp

/-- C10: scan interprets the pattern byte `0xFF` as the wildcard matching any
buffer byte.  First, for every `L ≥ 1` and every buffer of length at least
`L`, the pattern of `L` copies of `0xFF` matches at offset 0.  Second — for
every pattern and every candidate window — the match predicate holds iff
every position whose pattern byte is NOT `0xFF` agrees exactly: a `0xFF`
pattern byte constrains nothing at any position, so no pattern can demand an
exact match of the literal byte `0xFF`. -/
theorem scan_wildcard_ff (L : Nat) (B : List Nat)
    (h1 : 1 ≤ L) (h2 : L ≤ B.length) :
    scan B (List.replicate L 0xFF) = .ok (some 0) ∧
      ∀ P w : List Nat,
        (windowMatches P w = true ↔
          ∀ k, k < P.length → P.getD k 0 ≠ 0xFF → w.getD k 0 = P.getD k 0) := by
  refine ⟨scan_replicate_wildcards_aux L B h1 h2, ?_⟩
  intro P w
  unfold windowMatches
  rw [List.all_eq_true]
  constructor
  · intro h k hk hne
    have := h k (List.mem_range.mpr hk)
    simp only [Bool.or_eq_true, beq_iff_eq] at this
    cases this with
    | inl h' => exact absurd h' hne
    | inr h' => exact h'
  · intro h k hkmem
    have hk := List.mem_range.mp hkmem
    simp only [Bool.or_eq_true, beq_iff_eq]
    by_cases hff : P.getD k 0 = 0xFF
    · exact Or.inl hff
    · exact Or.inr (h k hk hff)

/-- Witness for C10 at `L = 3`, `B = [1, 2, 3, 4]`. -/
theorem scan_wildcard_ff_witness :
    1 ≤ 3 ∧ 3 ≤ ([1, 2, 3, 4] : List Nat).length ∧
      (scan [1, 2, 3, 4] (List.replicate 3 0xFF) = .ok (some 0) ∧
        ∀ P w : List Nat,
          (windowMatches P w = true ↔
            ∀ k, k < P.length → P.getD k 0 ≠ 0xFF → w.getD k 0 = P.getD k 0)) :=
  ⟨by decide, by decide, scan_wildcard_ff 3 [1, 2, 3, 4] (by decide) (by decide)⟩

theorem positionFirst_eq_some {p : α → Bool} {l : List α} {i : Nat}
    (h : positionFirst p l = some i) :
    ∃ a, l[i]? = some a ∧ p a = true ∧
      ∀ j : Nat, j < i → ∀ b, l[j]? = some b → p b = false := by
  induction l generalizing i with
  | nil => simp [positionFirst] at h
  | cons a as ih =>
    by_cases hpa : p a = true
    · have hi : i = 0 := by
        simp [positionFirst, hpa] at h
        omega
      subst hi
      exact ⟨a, by simp, hpa, fun j hj => by omega⟩
    · have hpa' : p a = false := by
        cases hb : p a with
        | false => rfl
        | true => exact absurd hb hpa
      rw [positionFirst, if_neg hpa] at h
      cases hpos : positionFirst p as with
      | none => rw [hpos] at h; simp at h
      | some i' =>
        rw [hpos] at h
        simp only [Option.map_some'] at h
        have hi : i = i' + 1 := by
          have := Option.some.inj h
          omega
        subst hi
        obtain ⟨b, hb, hpb, hprev⟩ := ih hpos
        refine ⟨b, by simpa using hb, hpb, ?_⟩
        intro j hj c hc
        cases j with
        | zero =>
          simp only [List.getElem?_cons_zero, Option.some.injEq] at hc
          subst hc
          exact hpa'
        | succ j' =>
          rw [List.getElem?_cons_succ] at hc
          exact hprev j' (by omega) c hc

theorem positionFirst_eq_none {p : α → Bool} {l : List α}
    (h : positionFirst p l = none) :
    ∀ (j : Nat) (b : α), l[j]? = some b → p b = false := by
  induction l with
  | nil => intro j b hb; simp at hb
  | cons a as ih =>
    by_cases hpa : p a = true
    · simp [positionFirst, hpa] at h
    · have hpa' : p a = false := by
        cases hb : p a with
        | false => rfl
        | true => exact absurd hb hpa
      rw [positionFirst, if_neg hpa] at h
      rw [Option.map_eq_none'] at h
      intro j b hb
      cases j with
      | zero =>
        simp only [List.getElem?_cons_zero, Option.some.injEq] at hb
        subst hb
        exact hpa'
      | succ j' =>
        rw [List.getElem?_cons_succ] at hb
        exact ih h j' b hb

theorem parWindows_length (m : Nat) (B : List Nat) :
    (parWindows m B).length = B.length + 1 - m := by
  simp [parWindows]

theorem parWindows_getElem? {m : Nat} {B : List Nat} {i : Nat}
    (h : i < B.length + 1 - m) :
    (parWindows m B)[i]? = some ((B.drop i).take m) := by
  simp [parWindows, h]

theorem window_getD (B : List Nat) (i m k : Nat) (hk : k < m) :
    ((B.drop i).take m).getD k 0 = B.getD (i + k) 0 := by
  rw [List.getD_eq_getElem?_getD, List.getD_eq_getElem?_getD,
    List.getElem?_take_of_lt hk, List.getElem?_drop]

theorem windowMatches_window_iff (B P : List Nat) (i : Nat) :
    windowMatches P ((B.drop i).take P.length) = true ↔
      ∀ k, k < P.length → P.getD k 0 = 0xFF ∨ B.getD (i + k) 0 = P.getD k 0 := by
  unfold windowMatches
  rw [List.all_eq_true]
  constructor
  · intro h k hk
    have := h k (List.mem_range.mpr hk)
    rw [window_getD B i P.length k hk] at this
    simpa using this
  · intro h k hkmem
    have hk := List.mem_range.mp hkmem
    rw [window_getD B i P.length k hk]
    simpa using h k hk

/-- C1 (amended to nonempty patterns): for every buffer `B` and nonempty
pattern `P`, `scan` does not fault, a returned offset `i` is a match and no
smaller offset matches, and a `none` result means no offset matches. -/
theorem scan_first_match (B P : List Nat) (hP : P ≠ []) :
    (∃ r, scan B P = .ok r) ∧
      (∀ i, scan B P = .ok (some i) →
        specMatchAt B P i ∧ ∀ j, j < i → ¬ specMatchAt B P j) ∧
      (scan B P = .ok none → ∀ i, ¬ specMatchAt B P i) := by
  have hm : ¬ (P.length = 0) := by
    intro h
    exact hP (List.length_eq_zero.mp h)
  have hm1 : 1 ≤ P.length := by omega
  have hscan : scan B P =
      .ok (positionFirst (windowMatches P) (parWindows P.length B)) := by
    simp [scan, hm]
  refine ⟨⟨_, hscan⟩, ?_, ?_⟩
  · intro i hi
    have hpos : positionFirst (windowMatches P) (parWindows P.length B) = some i :=
      Except.ok.inj (hscan.symm.trans hi)
    obtain ⟨w, hw, hpw, hprev⟩ := positionFirst_eq_some hpos
    have hilen : i < (parWindows P.length B).length := by
      by_contra hge
      rw [List.getElem?_eq_none (by omega)] at hw
      exact Option.noConfusion hw
    rw [parWindows_length] at hilen
    have hibound : i + P.length ≤ B.length := by omega
    rw [parWindows_getElem? hilen] at hw
    have hweq : w = (B.drop i).take P.length := by
      cases hw
      rfl
    subst hweq
    refine ⟨⟨hibound, (windowMatches_window_iff B P i).mp hpw⟩, ?_⟩
    intro j hj hmatch
    obtain ⟨hjb, hjall⟩ := hmatch
    have hjlen : j < B.length + 1 - P.length := by omega
    have := hprev j hj ((B.drop j).take P.length) (parWindows_getElem? hjlen)
    rw [(windowMatches_window_iff B P j).mpr hjall] at this
    exact Bool.noConfusion this
  · intro hnone i hmatch
    have hpos : positionFirst (windowMatches P) (parWindows P.length B) = none :=
      Except.ok.inj (hscan.symm.trans hnone)
    obtain ⟨hib, hiall⟩ := hmatch
    have hilen : i < B.length + 1 - P.length := by omega
    have := positionFirst_eq_none hpos i ((B.drop i).take P.length)
      (parWindows_getElem? hilen)
    rw [(windowMatches_window_iff B P i).mpr hiall] at this
    exact Bool.noConfusion this

/-- Witness for C1 at `B = [1, 2, 3]`, `P = [2]` (where `scan` returns
offset 1). -/
theorem scan_first_match_witness :
    (([2] : List Nat) ≠ []) ∧
      ((∃ r, scan [1, 2, 3] [2] = .ok r) ∧
        (∀ i, scan [1, 2, 3] [2] = .ok (some i) →
          specMatchAt [1, 2, 3] [2] i ∧ ∀ j, j < i → ¬ specMatchAt [1, 2, 3] [2] j) ∧
        (scan [1, 2, 3] [2] = .ok none → ∀ i, ¬ specMatchAt [1, 2, 3] [2] i)) :=
  ⟨by decide, scan_first_match [1, 2, 3] [2] (by decide)⟩

/-- C1 counterexample: for the empty pattern the claim's smallest matching
offset exists (offset 0 matches vacuously, and `0 ≤ len B - len P`), yet
`scan` does not return it — it trips rayon's window-size assertion. -/
theorem scan_empty_pattern_not_first_match :
    scan [0] [] = .error windowAssertMsg ∧ specMatchAt [0] [] 0 :=
  ⟨rfl, by simp, fun k hk => by simp at hk⟩

/-- C9 (amended): a pattern strictly longer than the buffer yields no match
(`scan` returns `none` without faulting). -/
theorem scan_pattern_longer_none (B P : List Nat) (h : B.length < P.length) :
    scan B P = .ok none := by
  have hm : ¬ (P.length = 0) := by omega
  have hw : B.length + 1 - P.length = 0 := by omega
  simp [scan, hm, parWindows, hw, positionFirst]

/-- Witness for C9 at the spec's end-to-end scenario: a buffer of length 3 and
a pattern of length 5. -/
theorem scan_pattern_longer_none_witness :
    (([1, 2, 3] : List Nat).length < ([1, 1, 1, 1, 1] : List Nat).length) ∧
      scan [1, 2, 3] [1, 1, 1, 1, 1] = .ok none :=
  ⟨by decide, scan_pattern_longer_none [1, 2, 3] [1, 1, 1, 1, 1] (by decide)⟩

/-- C9 counterexample: an empty pattern does not produce a defined result —
`scan` panics in rayon's `window_size >= 1` assertion (modelled as an error),
contradicting the claim that no degenerate input faults. -/
theorem scan_empty_pattern_panics :
    scan [1, 2, 3] [] = .error windowAssertMsg := rfl

/-- Combine two workers' results keeping the lower offset; `none` means the
worker found no match in its chunk. -/
def minOpt : Option Nat → Option Nat → Option Nat
  | none, b => b
  | some a, none => some a
  | some a, some b => some (min a b)

/-- Modelled from the spec's parallel decomposition of `scan`: the window list
is split into contiguous chunks, each worker independently computes the first
match inside its own chunk (as a global offset), and the combined result is
the minimum offset over all workers — not whichever worker finishes first. -/
def parPositionFirst (p : α → Bool) : List (List α) → Option Nat
  | [] => none
  | c :: cs => minOpt (positionFirst p c) ((parPositionFirst p cs).map (c.length + ·))

/-- Split a list into contiguous chunks of `n` elements (the final chunk may
be shorter); chunk size 0 degenerates to a single chunk. -/
def chunksOf : Nat → List α → List (List α)
  | _, [] => []
  | 0, a :: as => [a :: as]
  | n + 1, a :: as =>
    (a :: as).take (n + 1) :: chunksOf (n + 1) ((a :: as).drop (n + 1))
termination_by _ l => l.length
decreasing_by
  simp only [List.drop_succ_cons, List.length_cons, List.length_drop]
  omega

/-- Modelled from the spec: `scan` with its search space partitioned into `N`
parallel chunks of windows, each chunk scanned independently, results combined
by minimum offset.  (`N = 0` is treated as one worker.) -/
def scanPar (N : Nat) (slice pattern : List Nat) : Except String (Option Nat) :=
  if pattern.length = 0 then .error windowAssertMsg
  else
    .ok (parPositionFirst (windowMatches pattern)
      (chunksOf ((parWindows pattern.length slice).length / max N 1 + 1)
        (parWindows pattern.length slice)))

theorem positionFirst_lt_length {p : α → Bool} {l : List α} {i : Nat}
    (h : positionFirst p l = some i) : i < l.length := by
  induction l generalizing i with
  | nil => simp [positionFirst] at h
  | cons a as ih =>
    rw [positionFirst] at h
    by_cases hpa : p a = true
    · rw [if_pos hpa] at h
      have := Option.some.inj h
      simp [← this]
    · rw [if_neg hpa] at h
      cases hpos : positionFirst p as with
      | none => rw [hpos] at h; simp at h
      | some i' =>
        rw [hpos] at h
        simp only [Option.map_some'] at h
        have := Option.some.inj h
        have := ih hpos
        simp only [List.length_cons]
        omega

theorem positionFirst_append (p : α → Bool) (a b : List α) :
    positionFirst p (a ++ b) =
      minOpt (positionFirst p a) ((positionFirst p b).map (a.length + ·)) := by
  induction a with
  | nil =>
    simp only [List.nil_append, positionFirst, List.length_nil, minOpt]
    cases hb : positionFirst p b with
    | none => rfl
    | some j => simp
  | cons x xs ih =>
    rw [List.cons_append, positionFirst, positionFirst]
    by_cases hpx : p x = true
    · rw [if_pos hpx, if_pos hpx]
      cases h1 : positionFirst p xs with
      | none =>
        cases h2 : positionFirst p b with
        | none => simp [minOpt]
        | some j => simp [minOpt]
      | some i =>
        cases h2 : positionFirst p b with
        | none => simp [minOpt]
        | some j => simp [minOpt]
    · rw [if_neg hpx, if_neg hpx, ih]
      cases h1 : positionFirst p xs with
      | none =>
        cases h2 : positionFirst p b with
        | none => simp [minOpt]
        | some j =>
          simp only [minOpt, Option.map_none', Option.map_some', List.length_cons]
          congr 1
          omega
      | some i =>
        cases h2 : positionFirst p b with
        | none => simp [minOpt]
        | some j =>
          simp only [minOpt, Option.map_some', List.length_cons]
          congr 1
          omega

theorem parPositionFirst_flatten (p : α → Bool) (chunks : List (List α)) :
    parPositionFirst p chunks = positionFirst p chunks.flatten := by
  induction chunks with
  | nil => rfl
  | cons c cs ih =>
    rw [List.flatten_cons, positionFirst_append, parPositionFirst, ih]

theorem chunksOf_flatten (n : Nat) (l : List α) : (chunksOf n l).flatten = l := by
  have H : ∀ (len n : Nat) (l : List α), l.length = len → (chunksOf n l).flatten = l := by
    intro len
    induction len using Nat.strong_induction_on with
    | _ len ih =>
      intro n l hl
      cases l with
      | nil => cases n <;> simp [chunksOf]
      | cons a as =>
        cases n with
        | zero => simp [chunksOf]
        | succ n' =>
          rw [chunksOf, List.flatten_cons]
          have hdrop : ((a :: as).drop (n' + 1)).length < len := by
            rw [List.length_drop, List.length_cons]
            rw [List.length_cons] at hl
            omega
          rw [ih _ hdrop (n' + 1) _ rfl, List.take_append_drop]
  exact H l.length n l rfl

/-- C2: for every buffer, every pattern, and every degree of parallel
decomposition `N`, the chunked parallel scan (workers' results combined by
minimum offset) returns exactly the result of the single-threaded
left-to-right linear scan. -/
theorem scanPar_eq_scan (N : Nat) (slice pattern : List Nat) :
    scanPar N slice pattern = scan slice pattern := by
  unfold scanPar scan
  by_cases hm : pattern.length = 0
  · rw [if_pos hm, if_pos hm]
  · rw [if_neg hm, if_neg hm]
    rw [parPositionFirst_flatten, chunksOf_flatten]

/-! ## Section table reader (`sections`, `ptr.rs` lines 194-221)

The source reads an `IMAGE_DOS_HEADER` at the image base, an
`IMAGE_NT_HEADERS64` at `base + e_lfanew`, and
`nt_headers.FileHeader.NumberOfSections` fixed-size `IMAGE_SECTION_HEADER`
records following the NT headers.  We model the parsed in-memory headers
structurally; the descriptor table is a function so that the source's
unconditional indexed reads need no bound.  The source reads neither
`e_magic` nor `Signature`: it performs no validation of either magic marker.
`base()` has type `*const usize`, so `base.add(VirtualAddress)` advances by
`VirtualAddress * 8` bytes on the x86-64 target. -/

structure IMAGE_DOS_HEADER where
  e_magic : Nat
  e_lfanew : Nat
deriving DecidableEq

structure IMAGE_FILE_HEADER where
  NumberOfSections : Nat
deriving DecidableEq

structure IMAGE_NT_HEADERS64 where
  Signature : Nat
  FileHeader : IMAGE_FILE_HEADER
deriving DecidableEq

/-- One on-disk section descriptor: an 8-byte NUL-padded name, the section's
virtual size (`Misc.VirtualSize`) and its relative virtual address. -/
structure IMAGE_SECTION_HEADER where
  Name : List Nat
  VirtualSize : Nat
  VirtualAddress : Nat
deriving DecidableEq

/-- The running image as seen by `sections`: its numeric base address and the
parsed headers located through `e_lfanew`. -/
structure Image where
  base : Nat
  dos : IMAGE_DOS_HEADER
  nt : IMAGE_NT_HEADERS64
  sectionHeader : Nat → IMAGE_SECTION_HEADER

/-- `CStr::from_ptr(section.Name.as_ptr())`: the name bytes up to the first
NUL terminator. -/
def cstrName (bytes : List Nat) : List Nat := bytes.takeWhile (· ≠ 0)

structure Section where
  name : List Nat
  base : Nat
  len : Nat
deriving DecidableEq

/-- Embedding of `sections` (`ptr.rs` lines 194-221): for each descriptor
index below `NumberOfSections`, in order, produce a `Section` whose name is
the NUL-terminated descriptor name, whose base is
`base.add(section.VirtualAddress)` — a `*const usize` add, hence
`base + 8 * VirtualAddress` in bytes — and whose length is
`section.Misc.VirtualSize`.  No magic marker is inspected. -/
def sections (img : Image) : List Section :=
  (List.range img.nt.FileHeader.NumberOfSections).map fun index =>
    let s := img.sectionHeader index
    { name := cstrName s.Name
      base := img.base + 8 * s.VirtualAddress
      len := s.VirtualSize }

/-- A well-formed single-section image: correct DOS magic `0x5A4D`, correct NT
signature `0x00004550`, one descriptor named `.text` with RVA `0x1000` and
virtual size `0x200`. -/
def imgValid : Image :=
  { base := 0x400000
    dos := { e_magic := 0x5A4D, e_lfanew := 0x80 }
    nt := { Signature := 0x00004550, FileHeader := { NumberOfSections := 1 } }
    sectionHeader := fun _ =>
      { Name := [0x2E, 0x74, 0x65, 0x78, 0x74, 0, 0, 0]
        VirtualSize := 0x200
        VirtualAddress := 0x1000 } }

/-- The same image with both magic markers wrong (zero). -/
def imgBadMagic : Image :=
  { base := 0x400000
    dos := { e_magic := 0, e_lfanew := 0x80 }
    nt := { Signature := 0, FileHeader := { NumberOfSections := 1 } }
    sectionHeader := fun _ =>
      { Name := [0x2E, 0x74, 0x65, 0x78, 0x74, 0, 0, 0]
        VirtualSize := 0x200
        VirtualAddress := 0x1000 } }

/-- C3: evaluation of `sections` at a valid single-section image.  Descriptor
order and `len = VirtualSize` hold, but the section's base is
`base + 8 * relative_virtual_address` — the `*const usize` pointer add scales
the RVA by 8 — not `base + relative_virtual_address` as the claim states. -/
theorem sections_scales_rva_by_eight :
    sections imgValid =
      [{ name := [0x2E, 0x74, 0x65, 0x78, 0x74],
         base := 0x400000 + 8 * 0x1000,
         len := 0x200 }] ∧
      (0x400000 + 8 * 0x1000 : Nat) ≠ 0x400000 + 0x1000 := by
  constructor
  · rfl
  · decide

/-- C7 counterexample: an image whose legacy-header magic (and NT signature)
are wrong still yields a non-empty section list — `sections` performs no
validation, contradicting the claim that a bad magic yields an empty
sequence. -/
theorem sections_wrong_magic_nonempty : sections imgBadMagic ≠ [] := by
  intro h
  have : (sections imgBadMagic).length = 0 := by rw [h]; rfl
  rw [show (sections imgBadMagic).length = 1 from rfl] at this
  exact Nat.noConfusion this

/-- C7 (amended): `sections` never inspects the legacy-header magic or the
extended-header signature; its output depends only on the base address, the
section count and the descriptor table, so an image with corrupted magic
markers produces exactly the same (possibly non-empty) sections as the same
image with valid ones. -/
theorem sections_ignores_magic_markers (b : Nat)
    (dos dos' : IMAGE_DOS_HEADER) (sig sig' : Nat) (fh : IMAGE_FILE_HEADER)
    (sh : Nat → IMAGE_SECTION_HEADER) :
    sections { base := b, dos := dos, nt := { Signature := sig, FileHeader := fh },
               sectionHeader := sh } =
      sections { base := b, dos := dos', nt := { Signature := sig', FileHeader := fh },
                 sectionHeader := sh } := rfl

/-! ## Offset resolver (`resolve_rva`, `ptr.rs` lines 239-244)

`resolve_rva` computes `base().add(offset)` and transmutes the pointer into
the caller's function-pointer type `F`.  The embedding returns the numeric
entry address of the produced function value; `base()` is `*const usize`, so
the add advances `offset * 8` bytes. -/

/-- Embedding of `resolve_rva`: the entry address of the returned function
value, as computed by `base().add(offset)` on the x86-64 target. -/
def resolve_rva (base offset : Nat) : Nat := base + 8 * offset

/-- C4: evaluation of `resolve_rva` at the offset used in its own doc-comment
example.  The produced entry address is `base + 8 * offset` — the
`*const usize` pointer add scales the byte offset by 8 — not `base + offset`
as the claim states. -/
theorem resolve_rva_scales_offset_by_eight :
    resolve_rva 0x140000000 0x2843A0 = 0x140000000 + 8 * 0x2843A0 ∧
      (0x140000000 + 8 * 0x2843A0 : Nat) ≠ 0x140000000 + 0x2843A0 := by
  exact ⟨rfl, by decide⟩

/-! ## Inline hook installer (`hook`, `ptr.rs` lines 108-179)

`hook` runs on x86-64 (little-endian, `usize` = 8 bytes).  Its pointers
`target`, `trampoline` and the array pointers it copies from all have element
type `usize`, so every `copy_nonoverlapping`, indexed store and `add` in the
function moves in 8-byte units: the literal arrays `jump_back` and
`jump_instructions` are inferred as `[usize; _]`, and each entry is stored as
a full 8-byte little-endian word.  Memory is modelled byte-addressed as a
write log (most recent write first); unlogged addresses read 0. -/

abbrev Mem := List (Nat × Nat)

def readByte (m : Mem) (a : Nat) : Nat :=
  ((m.find? fun p => p.1 == a).map Prod.snd).getD 0

def writeByte (m : Mem) (a v : Nat) : Mem := (a, v % 256) :: m

/-- Store the 8-byte little-endian representation of `v % 2^64` at `a`. -/
def writeUsize (m : Mem) (a v : Nat) : Mem :=
  (List.range 8).foldl (fun mem i => writeByte mem (a + i) (v / 256 ^ i)) m

/-- Load the 8-byte little-endian word at `a`. -/
def readUsize (m : Mem) (a : Nat) : Nat :=
  (List.range 8).foldl (fun acc i => acc + readByte m (a + i) * 256 ^ i) 0

/-- `copy_nonoverlapping(src, dst, count)` with `usize` elements (the regions
`hook` copies between are disjoint). -/
def copyUsizes (m : Mem) (src dst count : Nat) : Mem :=
  (List.range count).foldl
    (fun mem i => writeUsize mem (dst + 8 * i) (readUsize mem (src + 8 * i))) m

/-- Store a literal `[usize; _]` array starting at `a`. -/
def writeUsizes (m : Mem) (a : Nat) : List Nat → Mem
  | [] => m
  | v :: rest => writeUsizes (writeUsize m a v) (a + 8) rest

/-- The `jmp [rip+0]` jump-back template copied into the trampoline
(`ptr.rs` lines 135-139); inferred as `[usize; 10]`. -/
def jump_back : List Nat := [0xFF, 0x25, 0, 0, 0, 0, 0, 0, 0, 0]

/-- The `mov rax, imm64; jmp rax` template written over the target
(`ptr.rs` lines 147-151); inferred as `[usize; 12]`. -/
def jump_instructions : List Nat := [0x48, 0xB8, 0, 0, 0, 0, 0, 0, 0, 0, 0xFF, 0xE0]

/-- `let original_size = 14;` (`ptr.rs` line 110) — also the length of the
`from_raw_parts(target, 14)` snapshot, counted in `usize` elements. -/
def original_size : Nat := 14

/-- The byte size passed to `VirtualAlloc` for the trampoline
(`ptr.rs` line 126): `VirtualAlloc(None, 5, MEM_COMMIT | MEM_RESERVE, ...)`. -/
def trampolineAllocSize : Nat := 5

/-- The memory effect of `hook` (`ptr.rs` lines 108-179), with `tramp` the
address returned by `VirtualAlloc` and `func` the numeric address stored for
the replacement.  In source order: copy the 14-element snapshot to the
trampoline; append the 10-element jump-back template at `trampoline.add(14)`;
store the return address `target.add(14)` at `trampoline_jump.add(6)`; copy
the 12-element jump template over `target`; store `func` at `target.add(2)`;
store `0x90` at `target.add(i)` for `i` in `12..14`.  All adds are on
`*{const,mut} usize`, hence byte stride 8. -/
def hookMem (m : Mem) (target tramp func : Nat) : Mem :=
  let m1 := copyUsizes m target tramp original_size
  let m2 := writeUsizes m1 (tramp + 8 * original_size) jump_back
  let m3 := writeUsize m2 (tramp + 8 * original_size + 8 * 6) (target + 8 * original_size)
  let m4 := writeUsizes m3 target jump_instructions
  let m5 := writeUsize m4 (target + 8 * 2) func
  let m6 := writeUsize m5 (target + 8 * 12) 0x90
  writeUsize m6 (target + 8 * 13) 0x90

/-- Full embedding of `hook`: the final memory paired with the function's
return value — the Rust signature
`pub fn hook<A>(target: *const usize, function: impl Fn(A))` returns `()`. -/
def hook (m : Mem) (target tramp func : Nat) : Mem × Unit :=
  (hookMem m target tramp func, ())

/-- Initial memory for the C5 evaluation: the 14 bytes at a target address 0
hold `0xCC` so that overwrites are visible. -/
def memCC : Mem := (List.range 14).map fun i => (i, 0xCC)

/-- C5: evaluation of `hook` at a concrete target.  Because the jump template
is written as 8-byte `usize` words, after installation the byte at
`target + 1` is `0x00`, not `0xB8` (the `0xB8` lands at byte offset 8), and
the bytes at offsets 12 and 13 of the 14-byte captured region are `0x00`,
not the claimed `0x90` NOPs (those are written at byte offsets 96 and 104). -/
theorem hook_target_bytes_not_instruction_sequence :
    readByte (hookMem memCC 0 1000 0x1234) 0 = 0x48 ∧
      readByte (hookMem memCC 0 1000 0x1234) 1 = 0 ∧
      readByte (hookMem memCC 0 1000 0x1234) 8 = 0xB8 ∧
      readByte (hookMem memCC 0 1000 0x1234) 12 = 0 ∧
      readByte (hookMem memCC 0 1000 0x1234) 13 = 0 ∧
      (0 : Nat) ≠ 0xB8 ∧ (0 : Nat) ≠ 0x90 := by
  refine ⟨?_, ?_, ?_, ?_, ?_, by decide, by decide⟩ <;> rfl

/-- C6: evaluation of `hook`'s trampoline writes.  The jump-back template
alone begins at byte offset `8 * 14 = 112` inside the trampoline, far past the
5-byte `VirtualAlloc` region — the populate step writes outside the
allocation (even the intended byte-level layout needs `14 + 10 = 24 > 5`
bytes). -/
theorem hook_trampoline_write_exceeds_allocation :
    trampolineAllocSize = 5 ∧
      ((hookMem [] 0 1000 7).map Prod.fst).contains (1000 + 112) = true ∧
      ¬ (112 < trampolineAllocSize) := by
  refine ⟨rfl, ?_, by decide⟩
  rfl

/-- C8 counterexample: the value `hook` returns is identical for two
installations with different targets, trampolines and replacements — it is
`()`, so it cannot carry a `HookRecord` with the target address, trampoline
address, captured bytes or saved protection. -/
theorem hook_return_carries_no_record :
    (hook [] 10 1000 7).2 = (hook [] 20 2000 9).2 ∧ (10 : Nat) ≠ 20 :=
  ⟨rfl, by decide⟩

/-- C8 (amended): `hook` returns no value at all — its only output is the
mutated memory; the captured original bytes, the trampoline address and the
saved protection flags stay in locals and are dropped when the function
returns. -/
theorem hook_returns_unit (m : Mem) (target tramp func : Nat) :
    (hook m target tramp func).2 = () ∧
      (hook m target tramp func).1 = hookMem m target tramp func :=
  ⟨rfl, rfl⟩

end Transcend
